import Mathlib

/-!
Verification development for the grobi display-configuration core
(`src/cmd/grobi/randr.go`).

Go strings are modelled as `List Char` (the inputs relevant here are ASCII,
so the byte/rune distinction of Go's UTF-8 handling does not arise).
Go's `(value, error)` returns are modelled as `Except`; code that can hit a
runtime panic (index out of range) is modelled with an explicit `panicked`
result so that the abnormal termination is visible in the model.
-/

set_option maxRecDepth 4000

/-- Mode is an output mode that may be active or default (randr.go). -/
structure Mode where
  Name : List Char
  Default : Bool
  Active : Bool
deriving DecidableEq

/-- Output encapsulates a physical output with detected modes (randr.go). -/
structure Output where
  Name : List Char
  Modes : List Mode
  Connected : Bool
deriving DecidableEq

/-- Outputs is a list of outputs (randr.go). -/
abbrev Outputs := List Output

/-- Distinct parse errors of the status parser; each carries the raw
offending data, mirroring the `fmt.Errorf` values in randr.go. -/
inductive ParseErr where
  | notModeLine
  | nameNotFound (line : List Char)
  | stateNotFound (line : List Char)
  | unknownState (tok : List Char)
  | modeNameNotFound (line : List Char)
  | refreshRateNotFound (line : List Char)
  | firstLineNotScreen (line : List Char)
deriving DecidableEq

/-- Result of a Go function returning `(α, error)`: a value, a typed error,
or a runtime panic (abnormal process termination, e.g. index out of range). -/
inductive GoResult (ε α : Type) where
  | ok : α → GoResult ε α
  | err : ε → GoResult ε α
  | panicked : GoResult ε α
deriving DecidableEq

/-- ASCII whitespace recognized by `bufio.ScanWords` (unicode.IsSpace
restricted to the ASCII range, which covers all inputs considered here). -/
def isSpaceChar (c : Char) : Bool :=
  c = ' ' ∨ c = '\t' ∨ c = '\n' ∨ c = '\x0b' ∨ c = '\x0c' ∨ c = '\r'

/-- Word splitter: accumulates the current word (reversed) while scanning. -/
def wordsLoop : List Char → List Char → List (List Char)
  | [], cur => if cur = [] then [] else [cur.reverse]
  | c :: cs, cur =>
    if isSpaceChar c then
      (if cur = [] then wordsLoop cs [] else cur.reverse :: wordsLoop cs [])
    else wordsLoop cs (c :: cur)

/-- `bufio.ScanWords`: whitespace-separated words of a line. -/
def words (l : List Char) : List (List Char) := wordsLoop l []

/-- `bufio.ScanLines`: split input into lines at newline characters; a
trailing newline does not yield a final empty line. -/
def splitLines : List Char → List (List Char)
  | [] => []
  | c :: rest =>
    if c = '\n' then [] :: splitLines rest
    else
      match splitLines rest with
      | [] => [[c]]
      | l :: ls => (c :: l) :: ls

/-- `strings.Split(s, "+")`. -/
def splitOnPlus : List Char → List (List Char)
  | [] => [[]]
  | c :: rest =>
    if c = '+' then [] :: splitOnPlus rest
    else
      match splitOnPlus rest with
      | [] => [[c]]
      | w :: ws => (c :: w) :: ws

/-- parseOutputLine returns the output parsed from the string (randr.go). -/
def parseOutputLine (line : List Char) : Except ParseErr Output :=
  match words line with
  | [] => .error (.nameNotFound line)
  | [_] => .error (.stateNotFound line)
  | name :: state :: rest =>
    if state = "connected".toList then
      .ok ⟨name, [], true⟩
    else if state = "disconnected".toList then
      match rest with
      | [] => .ok ⟨name, [], false⟩
      | tok :: _ =>
        match splitOnPlus tok with
        | [m, _, _] => .ok ⟨name, [⟨m, false, true⟩], false⟩
        | _ => .ok ⟨name, [], false⟩
    else .error (.unknownState state)

/-- parseModeLine returns the mode parsed from the string (randr.go).
The Go code indexes `rate[len(rate)-2]` unconditionally once the refresh
token exists, so a refresh token of length one makes the process panic
(index out of range); this is the `panicked` branch. -/
def parseModeLine (line : List Char) : GoResult ParseErr Mode :=
  if (("  ".toList).isPrefixOf line) = false then .err .notModeLine
  else
    match words line with
    | [] => .err (.modeNameNotFound line)
    | [_] => .err (.refreshRateNotFound line)
    | name :: rate :: rest =>
      if rate.length < 2 then .panicked
      else
        let dflt := rate.getD (rate.length - 1) ' ' = '+'
        let activ := rate.getD (rate.length - 2) ' ' = '*'
        .ok ⟨name, decide (dflt ∨ rest.headD [] = ['+']), decide activ⟩

/-- The three parser states of RandrParse (randr.go). -/
inductive PState where
  | start | output | mode

/-- The zero value of Go's `Output` type. -/
def zeroOutput : Output := ⟨[], [], false⟩

/-- The line loop of RandrParse: `acc` collects finished outputs, `cur` is
the in-progress output. A non-mode line in the mode state finalizes `cur`
and is re-dispatched as an output line (the inner `continue` in the Go
code is inlined here). -/
def randrLoop : PState → List Output → Output → List (List Char) →
    GoResult ParseErr (List Output)
  | _, acc, cur, [] => .ok (if cur.Name = [] then acc else acc ++ [cur])
  | .start, acc, cur, line :: rest =>
    if (("Screen ".toList).isPrefixOf line) = true then
      randrLoop .output acc cur rest
    else .err (.firstLineNotScreen line)
  | .output, acc, _, line :: rest =>
    match parseOutputLine line with
    | .error e => .err e
    | .ok o => randrLoop .mode acc o rest
  | .mode, acc, cur, line :: rest =>
    match parseModeLine line with
    | .err .notModeLine =>
      match parseOutputLine line with
      | .error e => .err e
      | .ok o => randrLoop .mode (acc ++ [cur]) o rest
    | .err e => .err e
    | .panicked => .panicked
    | .ok m => randrLoop .mode acc ⟨cur.Name, cur.Modes ++ [m], cur.Connected⟩ rest

/-- RandrParse returns the list of outputs parsed from the input (randr.go). -/
def RandrParse (input : List Char) : GoResult ParseErr (List Output) :=
  randrLoop .start [] zeroOutput (splitLines input)

/-- Rule — Modelled from the spec: the `Rule` struct is declared outside the
given source file (only `randr.go` is available); spec section 3 lists its
fields. Only the four fields read by `BuildCommandOutputRow` are retained
here; their types are also forced by the uses in `randr.go`. -/
structure Rule where
  ConfigureRow : List (List Char)
  ConfigureSingle : List Char
  Atomic : Bool
  DisableOrder : List (List Char)
deriving DecidableEq

/-- The configuration error of BuildCommandOutputRow
("empty monitor row configuration"). -/
inductive ConfigErr where
  | emptyConfig
deriving DecidableEq

/-- `strings.SplitN(s, "@", 2)`: text before the first `@`, and the rest
after it when an `@` is present. -/
def breakAtSign : List Char → List Char × Option (List Char)
  | [] => ([], none)
  | c :: rest =>
    if c = '@' then ([], some rest)
    else
      match breakAtSign rest with
      | (a, b) => (c :: a, b)

/-- Name part of a `name[@mode]` entry. -/
def nameOf (s : List Char) : List Char := (breakAtSign s).1

/-- Mode part of a `name[@mode]` entry; the empty string when no `@`
(or an empty mode) is given, exactly as in the Go code. -/
def modeOf (s : List Char) : List Char :=
  match (breakAtSign s).2 with
  | none => []
  | some m => m

/-- One enable argument group: `--output <name>` then `--auto` or
`--mode <mode>`, then `--right-of <prev>` for non-first outputs. -/
def enableGroup (o : List Char) (prev : Option (List Char)) : List (List Char) :=
  ["--output".toList, nameOf o] ++
  (if modeOf o = [] then ["--auto".toList] else ["--mode".toList, modeOf o]) ++
  (match prev with
   | none => []
   | some p => ["--right-of".toList, p])

/-- Enable groups after the first output; `last` is the previous output's
name (the `lastOutput` variable of the Go loop). -/
def enableArgsAux (last : List Char) : List (List Char) → List (List (List Char))
  | [] => []
  | o :: rest => enableGroup o (some last) :: enableArgsAux (nameOf o) rest

/-- The `enableOutputArgs` slice built by the Go loop. -/
def enableArgs : List (List Char) → List (List (List Char))
  | [] => []
  | o :: rest => enableGroup o none :: enableArgsAux (nameOf o) rest

/-- The resolved target output list: `ConfigureSingle` wins when non-empty,
else `ConfigureRow`; empty result means the rule has no usable layout. -/
def targetsOf (rule : Rule) : List (List Char) :=
  if rule.ConfigureSingle = [] then rule.ConfigureRow else [rule.ConfigureSingle]

/-- The `active` name set of the Go loop (names of all target outputs). -/
def activeNamesOf (rule : Rule) : List (List Char) :=
  (targetsOf rule).map nameOf

/-- Enable argument groups of a rule. -/
def enableArgsOf (rule : Rule) : List (List (List Char)) :=
  enableArgs (targetsOf rule)

/-- The `disableOutputs` map of the Go code, modelled as an
insertion-ordered duplicate-free list of names: outputs of the current
model that are connected or still carry modes, and are not rule targets.
(Go map iteration order is unspecified; the insertion order is fixed here,
and the theorems below about this set are order-insensitive.) -/
def disableNamesAux (active : List (List Char)) :
    List Output → List (List Char) → List (List Char)
  | [], acc => acc
  | o :: rest, acc =>
    if (o.Connected = true ∨ ¬ o.Modes = []) ∧ ¬ o.Name ∈ active ∧ ¬ o.Name ∈ acc
    then disableNamesAux active rest (acc ++ [o.Name])
    else disableNamesAux active rest acc

/-- Names of the outputs that will be disabled. -/
def disableNamesOf (rule : Rule) (current : List Output) : List (List Char) :=
  disableNamesAux (activeNamesOf rule) current []

/-- One disable argument group. -/
def offGroup (n : List Char) : List (List Char) :=
  ["--output".toList, n, "--off".toList]

/-- First pass over `disable_order`: names found in the disable set are
consumed (in the listed order) and removed from the set; returns the
consumed names in order and the remaining set. -/
def consumeDisableOrder : List (List Char) → List (List Char) →
    List (List Char) × List (List Char)
  | [], dset => ([], dset)
  | n :: rest, dset =>
    if n ∈ dset then
      (n :: (consumeDisableOrder rest (dset.erase n)).1,
       (consumeDisableOrder rest (dset.erase n)).2)
    else consumeDisableOrder rest dset

/-- The `disableOutputArgs` slice: `disable_order` names first, then the
remaining disable set. -/
def disableArgsOf (rule : Rule) (current : List Output) : List (List (List Char)) :=
  (consumeDisableOrder rule.DisableOrder (disableNamesOf rule current)).1.map offGroup ++
  (consumeDisableOrder rule.DisableOrder (disableNamesOf rule current)).2.map offGroup

/-- The pairing loop of the non-atomic branch: one disable and one enable
group per command until both queues are empty. -/
def pairLoop : List (List (List Char)) → List (List (List Char)) → List (List (List Char))
  | [], es => es
  | d :: ds, [] => d :: pairLoop ds []
  | d :: ds, e :: es => (d ++ e) :: pairLoop ds es

/-- Non-atomic command sequence: a lone first disable (when any), then the
pairing loop. -/
def splitCmds (ds es : List (List (List Char))) : List (List (List Char)) :=
  match ds with
  | [] => pairLoop [] es
  | d :: rest => d :: pairLoop rest es

/-- BuildCommandOutputRow (randr.go): returns the argument lists of the
`xrandr` invocations (the executable name is a constant and omitted from
the descriptor model). -/
def BuildCommandOutputRow (rule : Rule) (current : List Output) :
    Except ConfigErr (List (List (List Char))) :=
  if targetsOf rule = [] then .error .emptyConfig
  else if rule.Atomic = true then
    .ok [(disableArgsOf rule current).flatten ++ (enableArgsOf rule).flatten]
  else .ok (splitCmds (disableArgsOf rule current) (enableArgsOf rule))

/-- Decidable equality for `Except`, needed to evaluate the embedding on
concrete inputs. -/
instance {ε α : Type} [DecidableEq ε] [DecidableEq α] : DecidableEq (Except ε α) := fun x y =>
  match x, y with
  | .ok a, .ok b =>
    if h : a = b then isTrue (by rw [h]) else isFalse (by intro hc; cases hc; exact h rfl)
  | .error a, .error b =>
    if h : a = b then isTrue (by rw [h]) else isFalse (by intro hc; cases hc; exact h rfl)
  | .ok _, .error _ => isFalse (by intro hc; cases hc)
  | .error _, .ok _ => isFalse (by intro hc; cases hc)

/-- C1 counterexample: the report quoted by the claim carries the
refresh-rate token `60.00+*`, whose trailing character is `*` and whose
second-to-last character is `+`; per the parsing rules (trailing `+` is
default, second-to-last `*` is active) the parsed mode is therefore
neither default nor active, so the claimed result (Default=true,
Active=true) is not what RandrParse returns. -/
theorem c1_counterexample :
    RandrParse ("Screen 0\nHDMI1 connected 1920x1080+0+0\n  1920x1080 60.00+*\nVGA1 disconnected\n".toList) ≠
      GoResult.ok [⟨"HDMI1".toList, [⟨"1920x1080".toList, true, true⟩], true⟩,
                   ⟨"VGA1".toList, [], false⟩] := by decide

/-- C1 (amended): with the refresh-rate token written `60.00*+` (active
`*` second-to-last, default `+` trailing, as the grammar prescribes), the
report parses to exactly HDMI1 connected with the single mode
1920x1080 (Default=true, Active=true) followed by VGA1 disconnected with
no modes. -/
theorem c1_amended :
    RandrParse ("Screen 0\nHDMI1 connected 1920x1080+0+0\n  1920x1080 60.00*+\nVGA1 disconnected\n".toList) =
      GoResult.ok [⟨"HDMI1".toList, [⟨"1920x1080".toList, true, true⟩], true⟩,
                   ⟨"VGA1".toList, [], false⟩] := by decide

/-- C3 (code bug): a two-space-indented line whose second
whitespace-separated token has length one (here the refresh token `+`)
makes parseModeLine — and hence RandrParse on a report containing the
line — hit the out-of-range index `rate[len(rate)-2]` and terminate the
process by panic instead of returning a Mode or a typed FormatError. -/
theorem c3_panic :
    parseModeLine ("  800x600 +".toList) = GoResult.panicked ∧
    RandrParse ("Screen 0\nDP1 connected\n  800x600 +\n".toList) = GoResult.panicked := by
  exact ⟨by decide, by decide⟩

/-- C9: RandrParse on empty input returns an empty output list and no
error; the `Screen ` header requirement only applies once a first line
exists. -/
theorem c9_empty_input : RandrParse ("".toList) = GoResult.ok [] := by decide

/-- C2 counterexample: for the rule `{ConfigureRow:["LVDS1","VGA1@1024x768"],
Atomic:false}` and current outputs `[HDMI2 connected, LVDS1 disconnected]`,
the synthesizer does NOT return the two descriptors claimed (disable HDMI2;
then both enable groups concatenated): once the single disable group is
consumed by the lone first command, each remaining enable group is paired
with an empty disable queue and emitted in its own descriptor. -/
theorem c2_counterexample :
    BuildCommandOutputRow ⟨["LVDS1".toList, "VGA1@1024x768".toList], [], false, []⟩
        [⟨"HDMI2".toList, [], true⟩, ⟨"LVDS1".toList, [], false⟩] ≠
      Except.ok [["--output".toList, "HDMI2".toList, "--off".toList],
                 ["--output".toList, "LVDS1".toList, "--auto".toList,
                  "--output".toList, "VGA1".toList, "--mode".toList, "1024x768".toList,
                  "--right-of".toList, "LVDS1".toList]] := by decide

/-- C2 (amended): the same rule and current outputs synthesize exactly
three command descriptors: disable HDMI2 alone; enable LVDS1 with
`--auto`; enable VGA1 with `--mode 1024x768 --right-of LVDS1`. -/
theorem c2_amended :
    BuildCommandOutputRow ⟨["LVDS1".toList, "VGA1@1024x768".toList], [], false, []⟩
        [⟨"HDMI2".toList, [], true⟩, ⟨"LVDS1".toList, [], false⟩] =
      Except.ok [["--output".toList, "HDMI2".toList, "--off".toList],
                 ["--output".toList, "LVDS1".toList, "--auto".toList],
                 ["--output".toList, "VGA1".toList, "--mode".toList, "1024x768".toList,
                  "--right-of".toList, "LVDS1".toList]] := by decide

/-- The pairing loop emits max(d, e) descriptors. -/
lemma pairLoop_length : ∀ ds es : List (List (List Char)),
    (pairLoop ds es).length = max ds.length es.length := by
  intro ds
  induction ds with
  | nil => intro es; simp [pairLoop]
  | cons d ds ih =>
    intro es
    cases es with
    | nil =>
      have h := ih []
      simp [pairLoop, h]
    | cons e es =>
      have h := ih es
      simp [pairLoop, h]
      omega

/-- C4: for a non-atomic rule that synthesizes successfully with d disable
argument groups and e enable argument groups, the number of command
descriptors is e when d = 0 and 1 + max(d-1, e) when d > 0, and for d > 0
the first descriptor is exactly the first disable group alone. -/
theorem c4_split_counts (rule : Rule) (current : List Output)
    (cmds : List (List (List Char)))
    (hatomic : rule.Atomic = false)
    (hok : BuildCommandOutputRow rule current = Except.ok cmds) :
    (cmds.length =
      if (disableArgsOf rule current).length = 0 then (enableArgsOf rule).length
      else 1 + max ((disableArgsOf rule current).length - 1) (enableArgsOf rule).length) ∧
    ((disableArgsOf rule current).length ≠ 0 →
      cmds.head? = (disableArgsOf rule current).head?) := by
  unfold BuildCommandOutputRow at hok
  by_cases ht : targetsOf rule = []
  · rw [if_pos ht] at hok
    exact absurd hok (by intro hc; cases hc)
  · rw [if_neg ht, if_neg (by rw [hatomic]; exact Bool.false_ne_true)] at hok
    injection hok with h2
    subst h2
    cases hda : disableArgsOf rule current with
    | nil =>
      refine ⟨?_, ?_⟩
      · simp [splitCmds, pairLoop]
      · intro hne; simp at hne
    | cons d ds =>
      refine ⟨?_, ?_⟩
      · simp [splitCmds, pairLoop_length]
        omega
      · intro _; simp [splitCmds]

/-- C4 witness: a concrete non-atomic rule with one disable and one enable
group, instantiating the count theorem. -/
theorem c4_witness :
    BuildCommandOutputRow ⟨["A".toList], [], false, []⟩ [⟨"B".toList, [], true⟩] =
      Except.ok [["--output".toList, "B".toList, "--off".toList],
                 ["--output".toList, "A".toList, "--auto".toList]] ∧
    (([["--output".toList, "B".toList, "--off".toList],
       ["--output".toList, "A".toList, "--auto".toList]] : List (List (List Char))).length =
      if (disableArgsOf ⟨["A".toList], [], false, []⟩ [⟨"B".toList, [], true⟩]).length = 0
      then (enableArgsOf ⟨["A".toList], [], false, []⟩).length
      else 1 + max ((disableArgsOf ⟨["A".toList], [], false, []⟩ [⟨"B".toList, [], true⟩]).length - 1)
             (enableArgsOf ⟨["A".toList], [], false, []⟩).length) ∧
    ((disableArgsOf ⟨["A".toList], [], false, []⟩ [⟨"B".toList, [], true⟩]).length ≠ 0 →
      ([["--output".toList, "B".toList, "--off".toList],
        ["--output".toList, "A".toList, "--auto".toList]] : List (List (List Char))).head? =
        (disableArgsOf ⟨["A".toList], [], false, []⟩ [⟨"B".toList, [], true⟩]).head?) :=
  ⟨by decide, c4_split_counts ⟨["A".toList], [], false, []⟩ [⟨"B".toList, [], true⟩] _ rfl (by decide)⟩

/-- C5 counterexample: an atomic rule with neither ConfigureSingle nor
ConfigureRow populated makes BuildCommandOutputRow return the
configuration error — no command descriptor at all — so "every rule with
Atomic=true returns exactly one descriptor" fails as stated. -/
theorem c5_counterexample :
    BuildCommandOutputRow ⟨[], [], true, []⟩ [] = Except.error ConfigErr.emptyConfig := by
  decide

/-- C5 (amended): for every rule with Atomic=true whose ConfigureSingle or
ConfigureRow is populated, and every current Outputs, the synthesizer
returns exactly one command descriptor, whose argument list is all disable
argument groups concatenated followed by all enable argument groups
concatenated (every disable group precedes every enable group). -/
theorem c5_amended (rule : Rule) (current : List Output)
    (hatomic : rule.Atomic = true)
    (hcfg : ¬ (rule.ConfigureSingle = [] ∧ rule.ConfigureRow = [])) :
    BuildCommandOutputRow rule current =
      Except.ok [(disableArgsOf rule current).flatten ++ (enableArgsOf rule).flatten] := by
  have ht : ¬ targetsOf rule = [] := by
    unfold targetsOf
    by_cases hs : rule.ConfigureSingle = []
    · rw [if_pos hs]
      intro hrow
      exact hcfg ⟨hs, hrow⟩
    · rw [if_neg hs]
      intro hc
      cases hc
  unfold BuildCommandOutputRow
  rw [if_neg ht, if_pos hatomic]

/-- C5 witness: a concrete atomic rule instantiating the amended claim. -/
theorem c5_witness :
    BuildCommandOutputRow ⟨["A".toList, "B".toList], [], true, ["X".toList]⟩
        [⟨"X".toList, [], true⟩, ⟨"A".toList, [], true⟩] =
      Except.ok [(disableArgsOf ⟨["A".toList, "B".toList], [], true, ["X".toList]⟩
            [⟨"X".toList, [], true⟩, ⟨"A".toList, [], true⟩]).flatten ++
          (enableArgsOf ⟨["A".toList, "B".toList], [], true, ["X".toList]⟩).flatten] :=
  c5_amended ⟨["A".toList, "B".toList], [], true, ["X".toList]⟩
    [⟨"X".toList, [], true⟩, ⟨"A".toList, [], true⟩] rfl (by decide)

/-- BuildCommandOutputRow reads the rule only through its resolved target
list, its Atomic flag and its DisableOrder. -/
lemma build_ext (r1 r2 : Rule) (current : List Output)
    (ht : targetsOf r1 = targetsOf r2) (ha : r1.Atomic = r2.Atomic)
    (hd : r1.DisableOrder = r2.DisableOrder) :
    BuildCommandOutputRow r1 current = BuildCommandOutputRow r2 current := by
  unfold BuildCommandOutputRow disableArgsOf disableNamesOf activeNamesOf enableArgsOf
  rw [ht, ha, hd]

/-- C10: when both ConfigureSingle and ConfigureRow are populated, the
synthesizer does not fail: ConfigureSingle takes precedence (the target
list is the single entry) and ConfigureRow is ignored entirely (the result
is the same as for the rule with ConfigureRow emptied). -/
theorem c10_single_precedence (rule : Rule) (current : List Output)
    (hs : ¬ rule.ConfigureSingle = []) (_hr : ¬ rule.ConfigureRow = []) :
    targetsOf rule = [rule.ConfigureSingle] ∧
    (∃ cmds, BuildCommandOutputRow rule current = Except.ok cmds) ∧
    BuildCommandOutputRow rule current =
      BuildCommandOutputRow ⟨[], rule.ConfigureSingle, rule.Atomic, rule.DisableOrder⟩ current := by
  have ht : targetsOf rule = [rule.ConfigureSingle] := by
    unfold targetsOf
    rw [if_neg hs]
  refine ⟨ht, ?_, ?_⟩
  · unfold BuildCommandOutputRow
    rw [if_neg (by rw [ht]; intro hc; cases hc)]
    by_cases ha : rule.Atomic = true
    · rw [if_pos ha]; exact ⟨_, rfl⟩
    · rw [if_neg ha]; exact ⟨_, rfl⟩
  · refine build_ext rule _ current ?_ rfl rfl
    rw [ht]
    unfold targetsOf
    rw [if_neg hs]

/-- C10 witness: a concrete rule with both layout fields populated. -/
theorem c10_witness :
    targetsOf ⟨["R".toList], "S".toList, false, []⟩ = ["S".toList] ∧
    (∃ cmds, BuildCommandOutputRow ⟨["R".toList], "S".toList, false, []⟩ [] = Except.ok cmds) ∧
    BuildCommandOutputRow ⟨["R".toList], "S".toList, false, []⟩ [] =
      BuildCommandOutputRow ⟨[], "S".toList, false, []⟩ [] :=
  c10_single_precedence ⟨["R".toList], "S".toList, false, []⟩ [] (by decide) (by decide)

/-- Membership in the disable name set: a name is collected iff some
current output carries it, that output is connected or still has modes,
and the name is not a rule target. -/
lemma disableNamesAux_mem : ∀ (active : List (List Char)) (current : List Output)
    (acc : List (List Char)) (n : List Char),
    n ∈ disableNamesAux active current acc ↔
      n ∈ acc ∨ ∃ o, o ∈ current ∧ o.Name = n ∧
        (o.Connected = true ∨ ¬ o.Modes = []) ∧ ¬ n ∈ active := by
  intro active current
  induction current with
  | nil => intro acc n; simp [disableNamesAux]
  | cons o rest ih =>
    intro acc n
    by_cases hcnd : (o.Connected = true ∨ ¬ o.Modes = []) ∧ ¬ o.Name ∈ active ∧ ¬ o.Name ∈ acc
    · rw [disableNamesAux, if_pos hcnd, ih]
      constructor
      · rintro (hacc | ⟨o', ho', hrest⟩)
        · rcases List.mem_append.mp hacc with h | h
          · exact Or.inl h
          · have hn : n = o.Name := by simpa using h
            subst hn
            exact Or.inr ⟨o, List.mem_cons_self o rest, rfl, hcnd.1, hcnd.2.1⟩
        · exact Or.inr ⟨o', List.mem_cons_of_mem _ ho', hrest⟩
      · rintro (hacc | ⟨o', ho', hname, hconds, hact⟩)
        · exact Or.inl (List.mem_append.mpr (Or.inl hacc))
        · rcases List.mem_cons.mp ho' with h | h
          · subst h
            subst hname
            exact Or.inl (List.mem_append.mpr (Or.inr (by simp)))
          · exact Or.inr ⟨o', h, hname, hconds, hact⟩
    · rw [disableNamesAux, if_neg hcnd, ih]
      constructor
      · rintro (hacc | ⟨o', ho', hrest⟩)
        · exact Or.inl hacc
        · exact Or.inr ⟨o', List.mem_cons_of_mem _ ho', hrest⟩
      · rintro (hacc | ⟨o', ho', hname, hconds, hact⟩)
        · exact Or.inl hacc
        · rcases List.mem_cons.mp ho' with h | h
          · subst h
            subst hname
            left
            by_contra hnacc
            exact hcnd ⟨hconds, hact, hnacc⟩
          · exact Or.inr ⟨o', h, hname, hconds, hact⟩

/-- The disable name set never contains duplicates (it models map keys). -/
lemma disableNamesAux_nodup : ∀ (active : List (List Char)) (current : List Output)
    (acc : List (List Char)), acc.Nodup → (disableNamesAux active current acc).Nodup := by
  intro active current
  induction current with
  | nil => intro acc h; simpa [disableNamesAux] using h
  | cons o rest ih =>
    intro acc h
    by_cases hcnd : (o.Connected = true ∨ ¬ o.Modes = []) ∧ ¬ o.Name ∈ active ∧ ¬ o.Name ∈ acc
    · rw [disableNamesAux, if_pos hcnd]
      refine ih _ ?_
      simp [List.nodup_append, h, hcnd.2.2]
    · rw [disableNamesAux, if_neg hcnd]
      exact ih _ h

/-- The two results of the disable-order pass partition the disable set
(as membership). -/
lemma consume_mem : ∀ (order dset : List (List Char)) (n : List Char),
    (n ∈ (consumeDisableOrder order dset).1 ∨ n ∈ (consumeDisableOrder order dset).2) ↔
      n ∈ dset := by
  intro order
  induction order with
  | nil => intro dset n; simp [consumeDisableOrder]
  | cons o rest ih =>
    intro dset n
    by_cases ho : o ∈ dset
    · rw [consumeDisableOrder, if_pos ho]
      constructor
      · rintro (h1 | h2)
        · rcases List.mem_cons.mp h1 with h | h
          · exact h ▸ ho
          · exact List.mem_of_mem_erase ((ih _ n).mp (Or.inl h))
        · exact List.mem_of_mem_erase ((ih _ n).mp (Or.inr h2))
      · intro hd
        by_cases hno : n = o
        · exact Or.inl (List.mem_cons.mpr (Or.inl hno))
        · rcases (ih (dset.erase o) n).mpr ((List.mem_erase_of_ne hno).mpr hd) with h | h
          · exact Or.inl (List.mem_cons.mpr (Or.inr h))
          · exact Or.inr h
    · rw [consumeDisableOrder, if_neg ho]
      exact ih dset n

/-- The names consumed by the disable-order pass appear in the listed
order (they form a sublist of `disable_order`). -/
lemma consume_taken_sublist : ∀ (order dset : List (List Char)),
    List.Sublist (consumeDisableOrder order dset).1 order := by
  intro order
  induction order with
  | nil => intro dset; simp [consumeDisableOrder]
  | cons o rest ih =>
    intro dset
    by_cases ho : o ∈ dset
    · rw [consumeDisableOrder, if_pos ho]
      exact List.Sublist.cons₂ o (ih (dset.erase o))
    · rw [consumeDisableOrder, if_neg ho]
      exact List.Sublist.cons o (ih dset)

/-- A name is consumed by the disable-order pass iff it is listed in
`disable_order` and belongs to the disable set. -/
lemma consume_taken_mem : ∀ (order dset : List (List Char)) (n : List Char),
    n ∈ (consumeDisableOrder order dset).1 ↔ n ∈ order ∧ n ∈ dset := by
  intro order
  induction order with
  | nil => intro dset n; simp [consumeDisableOrder]
  | cons o rest ih =>
    intro dset n
    by_cases ho : o ∈ dset
    · rw [consumeDisableOrder, if_pos ho]
      constructor
      · intro h
        rcases List.mem_cons.mp h with h | h
        · exact ⟨List.mem_cons.mpr (Or.inl h), h ▸ ho⟩
        · rcases (ih _ n).mp h with ⟨h1, h2⟩
          exact ⟨List.mem_cons.mpr (Or.inr h1), List.mem_of_mem_erase h2⟩
      · rintro ⟨h1, h2⟩
        by_cases hno : n = o
        · exact List.mem_cons.mpr (Or.inl hno)
        · rcases List.mem_cons.mp h1 with h | h
          · exact absurd h hno
          · exact List.mem_cons.mpr
              (Or.inr ((ih _ n).mpr ⟨h, (List.mem_erase_of_ne hno).mpr h2⟩))
    · rw [consumeDisableOrder, if_neg ho]
      constructor
      · intro h
        rcases (ih dset n).mp h with ⟨h1, h2⟩
        exact ⟨List.mem_cons.mpr (Or.inr h1), h2⟩
      · rintro ⟨h1, h2⟩
        rcases List.mem_cons.mp h1 with h | h
        · exact absurd (h ▸ h2) ho
        · exact (ih dset n).mpr ⟨h, h2⟩

/-- The consumed names are duplicate-free when the disable set is. -/
lemma consume_taken_nodup : ∀ (order dset : List (List Char)), dset.Nodup →
    (consumeDisableOrder order dset).1.Nodup := by
  intro order
  induction order with
  | nil => intro dset h; simp [consumeDisableOrder]
  | cons o rest ih =>
    intro dset h
    by_cases ho : o ∈ dset
    · rw [consumeDisableOrder, if_pos ho]
      refine List.nodup_cons.mpr ⟨?_, ih _ (h.erase o)⟩
      intro hmem
      have h2 := ((consume_taken_mem rest (dset.erase o) o).mp hmem).2
      exact absurd ((h.mem_erase_iff).mp h2).1 (by simp)
    · rw [consumeDisableOrder, if_neg ho]
      exact ih dset h

/-- The remaining set after the disable-order pass is a subset of the
original disable set. -/
lemma consume_rem_subset : ∀ (order dset : List (List Char)),
    (consumeDisableOrder order dset).2 ⊆ dset := by
  intro order
  induction order with
  | nil => intro dset; simp [consumeDisableOrder]
  | cons o rest ih =>
    intro dset
    by_cases ho : o ∈ dset
    · rw [consumeDisableOrder, if_pos ho]
      exact fun n hn => List.mem_of_mem_erase (ih (dset.erase o) hn)
    · rw [consumeDisableOrder, if_neg ho]
      exact ih dset

/-- No name remaining after the disable-order pass is listed in
`disable_order` (when the disable set has no duplicates). -/
lemma consume_rem_not_listed : ∀ (order dset : List (List Char)), dset.Nodup →
    ∀ n, n ∈ (consumeDisableOrder order dset).2 → ¬ n ∈ order := by
  intro order
  induction order with
  | nil => intro dset _ n _; simp
  | cons o rest ih =>
    intro dset h n hn
    by_cases ho : o ∈ dset
    · rw [consumeDisableOrder, if_pos ho] at hn
      intro hmem
      rcases List.mem_cons.mp hmem with he | he
      · have h2 := consume_rem_subset rest (dset.erase o) hn
        exact absurd (h.mem_erase_iff.mp (he ▸ h2)).1 (by simp)
      · exact ih (dset.erase o) (h.erase o) n hn he
    · rw [consumeDisableOrder, if_neg ho] at hn
      intro hmem
      rcases List.mem_cons.mp hmem with he | he
      · exact absurd (he ▸ consume_rem_subset rest dset hn) ho
      · exact ih dset h n hn he

/-- Disable argument groups are determined by their output name. -/
lemma offGroup_inj {a b : List Char} (h : offGroup a = offGroup b) : a = b := by
  simpa [offGroup] using h

/-- `offGroup n` occurs among mapped groups exactly when `n` occurs among
the names. -/
lemma mem_map_offGroup (l : List (List Char)) (n : List Char) :
    offGroup n ∈ l.map offGroup ↔ n ∈ l := by
  constructor
  · intro h
    rcases List.mem_map.mp h with ⟨x, hx, he⟩
    rwa [← offGroup_inj he]
  · exact fun h => List.mem_map_of_mem offGroup h

/-- C6 counterexample: the rule targets LVDS1 only; the current model has
VGA1 disconnected whose single mode is NOT active, yet VGA1 receives a
disable argument group — the code tests for a non-empty mode list, not for
an active mode, so the claim's "still carrying an active mode" is wrong. -/
theorem c6_counterexample :
    offGroup ("VGA1".toList) ∈
      disableArgsOf ⟨[], "LVDS1".toList, false, []⟩
        [⟨"VGA1".toList, [⟨"800x600".toList, false, false⟩], false⟩] ∧
    BuildCommandOutputRow ⟨[], "LVDS1".toList, false, []⟩
        [⟨"VGA1".toList, [⟨"800x600".toList, false, false⟩], false⟩] =
      Except.ok [["--output".toList, "VGA1".toList, "--off".toList],
                 ["--output".toList, "LVDS1".toList, "--auto".toList]] := by
  exact ⟨by decide, by decide⟩

/-- C6 (amended): an output of the current model receives a disable
argument group iff it is not a target of the rule and it is either
connected or it is disconnected but still carries a NON-EMPTY mode list
(whether or not any of those modes is active). -/
theorem c6_amended (rule : Rule) (current : List Output) (n : List Char) :
    offGroup n ∈ disableArgsOf rule current ↔
      (¬ n ∈ activeNamesOf rule ∧
        ∃ o, o ∈ current ∧ o.Name = n ∧ (o.Connected = true ∨ ¬ o.Modes = [])) := by
  unfold disableArgsOf
  rw [List.mem_append, mem_map_offGroup, mem_map_offGroup, consume_mem]
  unfold disableNamesOf
  rw [disableNamesAux_mem]
  constructor
  · rintro (h | ⟨o, ho, hname, hconds, hact⟩)
    · exact absurd h (List.not_mem_nil n)
    · exact ⟨hact, o, ho, hname, hconds⟩
  · rintro ⟨hact, o, ho, hname, hconds⟩
    exact Or.inr ⟨o, ho, hname, hconds, hact⟩

/-- C7: the disable argument groups list all `disable_order` names that
belong to the disable set first, in exactly the listed order (a duplicate-
free sublist of `disable_order`), followed only by groups for outputs not
named in `disable_order`. -/
theorem c7_disable_order (rule : Rule) (current : List Output) :
    ∃ l1 l2 : List (List Char),
      disableArgsOf rule current = l1.map offGroup ++ l2.map offGroup ∧
      List.Sublist l1 rule.DisableOrder ∧ l1.Nodup ∧
      (∀ n, n ∈ l1 ↔ n ∈ rule.DisableOrder ∧ n ∈ disableNamesOf rule current) ∧
      (∀ n, n ∈ l2 → ¬ n ∈ rule.DisableOrder) := by
  have hnd : (disableNamesOf rule current).Nodup :=
    disableNamesAux_nodup _ _ [] List.nodup_nil
  refine ⟨(consumeDisableOrder rule.DisableOrder (disableNamesOf rule current)).1,
          (consumeDisableOrder rule.DisableOrder (disableNamesOf rule current)).2,
          rfl,
          consume_taken_sublist _ _,
          consume_taken_nodup _ _ hnd,
          fun n => consume_taken_mem _ _ n,
          fun n => consume_rem_not_listed _ _ hnd n⟩

/-- NUL, the zero value of Go's `rune`; used where the Go code leaves a
rune at its zero value. -/
def nullChar : Char := Char.ofNat 0

/-- `getEsc` of Go's `path.Match`: one (possibly escaped) character of a
character class. Errors on a leading `-` or `]`, a bare trailing
backslash, or when nothing follows the character (the class is unclosed). -/
def getEsc : List Char → Except Unit (Char × List Char)
  | [] => .error ()
  | c :: rest =>
    if c = '-' ∨ c = ']' then .error ()
    else if c = '\\' then
      match rest with
      | [] => .error ()
      | r :: rest2 => if rest2 = [] then .error () else .ok (r, rest2)
    else if rest = [] then .error () else .ok (c, rest)

/-- The range-parsing loop of `matchChunk`'s `[` case: consumes
`lo[-hi]` items until a closing `]` (fuelled; each step consumes at least
one chunk character, so `length + 1` fuel never runs out). Returns whether
`r` fell in some range, and the chunk after the class. -/
def matchRanges : Nat → Char → Bool → Bool → List Char → Except Unit (Bool × List Char)
  | 0, _, _, _, _ => .error ()
  | fuel + 1, r, started, acc, chunk =>
    if chunk.headD nullChar = ']' ∧ started = true then .ok (acc, chunk.tail)
    else
      match getEsc chunk with
      | .error _ => .error ()
      | .ok (lo, chunk1) =>
        match (if chunk1.headD nullChar = '-' then getEsc chunk1.tail
               else .ok (lo, chunk1)) with
        | .error _ => .error ()
        | .ok (hi, chunk2) =>
          matchRanges fuel r true (acc || (decide (lo ≤ r) && decide (r ≤ hi))) chunk2

/-- `matchChunk` of Go's `path.Match`: matches a chunk (no stars) against
the head of `s`; once the match has failed it keeps scanning the chunk so
that malformed patterns are still reported. Returns the unconsumed rest of
`s` and the success flag, or a bad-pattern error. -/
def matchChunkAux : Nat → List Char → List Char → Bool → Except Unit (List Char × Bool)
  | 0, _, _, _ => .error ()
  | _ + 1, [], s, failed => if failed then .ok ([], false) else .ok (s, true)
  | fuel + 1, c :: chunkRest, s, failed =>
    if c = '[' then
      match matchRanges
          ((if chunkRest.headD nullChar = '^' then chunkRest.tail else chunkRest).length + 1)
          (if failed || s.isEmpty then nullChar else s.headD nullChar) false false
          (if chunkRest.headD nullChar = '^' then chunkRest.tail else chunkRest) with
      | .error _ => .error ()
      | .ok (m, chunkAfter) =>
        matchChunkAux fuel chunkAfter
          (if failed || s.isEmpty then s else s.tail)
          ((failed || s.isEmpty) || (m == decide (chunkRest.headD nullChar = '^')))
    else if c = '?' then
      if failed || s.isEmpty then matchChunkAux fuel chunkRest s true
      else matchChunkAux fuel chunkRest s.tail (s.headD nullChar == '/')
    else if c = '\\' then
      if chunkRest = [] then .error ()
      else if failed || s.isEmpty then matchChunkAux fuel chunkRest.tail s true
      else matchChunkAux fuel chunkRest.tail s.tail
        (!(chunkRest.headD nullChar == s.headD nullChar))
    else
      if failed || s.isEmpty then matchChunkAux fuel chunkRest s true
      else matchChunkAux fuel chunkRest s.tail (!(c == s.headD nullChar))

/-- `matchChunk` with enough fuel for its chunk. -/
def matchChunk (chunk s : List Char) : Except Unit (List Char × Bool) :=
  matchChunkAux (chunk.length + 1) chunk s false

/-- Leading-star stripping of `scanChunk`. -/
def dropStars : List Char → Bool × List Char
  | [] => (false, [])
  | c :: rest => if c = '*' then (true, (dropStars rest).2) else (false, c :: rest)

/-- Chunk scan of `scanChunk`: collects characters up to the next
top-level `*`, treating `[...]` contents and backslash escapes as inert. -/
def scanChunkAux (inrange : Bool) : List Char → List Char × List Char
  | [] => ([], [])
  | c :: rest =>
    if c = '*' ∧ inrange = false then ([], c :: rest)
    else if c = '\\' then
      match rest with
      | [] => ([c], [])
      | d :: rest2 =>
        (c :: d :: (scanChunkAux inrange rest2).1, (scanChunkAux inrange rest2).2)
    else
      (c :: (scanChunkAux (if c = '[' then true else if c = ']' then false else inrange) rest).1,
       (scanChunkAux (if c = '[' then true else if c = ']' then false else inrange) rest).2)

/-- `scanChunk` of Go's `path.Match`: star flag, next chunk, rest. -/
def scanChunk (pattern : List Char) : Bool × List Char × List Char :=
  ((dropStars pattern).1,
   (scanChunkAux false (dropStars pattern).2).1,
   (scanChunkAux false (dropStars pattern).2).2)

/-- The star-retry loop of `Match`: try the chunk at every later position
of the name, stopping at a `/` (a star cannot skip a separator). -/
def starLoop (chunk : List Char) (patEmpty : Bool) : List Char → Except Unit (Option (List Char))
  | [] => .ok none
  | c :: nrest =>
    if c = '/' then .ok none
    else
    match matchChunk chunk nrest with
    | .error _ => .error ()
    | .ok (t, okb) =>
      if okb = true then
        (if patEmpty = true ∧ ¬ t = [] then starLoop chunk patEmpty nrest
         else .ok (some t))
      else starLoop chunk patEmpty nrest

/-- The terminal validation loop of `Match`: before an error-free
non-match is reported, the rest of the pattern is checked chunk by chunk
for syntax errors (fuelled; one chunk is consumed per step). -/
def validateRest : Nat → List Char → Except Unit Unit
  | 0, _ => .error ()
  | fuel + 1, pattern =>
    match pattern with
    | [] => .ok ()
    | _ :: _ =>
      match matchChunk (scanChunk pattern).2.1 [] with
      | .error _ => .error ()
      | .ok _ => validateRest fuel (scanChunk pattern).2.2

/-- The main loop of Go's `path.Match` (fuelled on the pattern, which
strictly shrinks every iteration). -/
def goMatchLoop : Nat → List Char → List Char → Except Unit Bool
  | 0, _, _ => .error ()
  | fuel + 1, pattern, name =>
    match pattern with
    | [] => .ok (decide (name = []))
    | _ :: _ =>
      if (scanChunk pattern).1 = true ∧ (scanChunk pattern).2.1 = [] then
        .ok (!(name.contains '/'))
      else
        match matchChunk (scanChunk pattern).2.1 name with
        | .error _ => .error ()
        | .ok (t, okb) =>
          if okb = true ∧ (t = [] ∨ ¬ (scanChunk pattern).2.2 = []) then
            goMatchLoop fuel (scanChunk pattern).2.2 t
          else if (scanChunk pattern).1 = true then
            match starLoop (scanChunk pattern).2.1
                (decide ((scanChunk pattern).2.2 = [])) name with
            | .error _ => .error ()
            | .ok (some t2) => goMatchLoop fuel (scanChunk pattern).2.2 t2
            | .ok none =>
              match validateRest ((scanChunk pattern).2.2.length + 1) (scanChunk pattern).2.2 with
              | .error _ => .error ()
              | .ok _ => .ok false
          else
            match validateRest ((scanChunk pattern).2.2.length + 1) (scanChunk pattern).2.2 with
            | .error _ => .error ()
            | .ok _ => .ok false

/-- `path.Match(pattern, name)`. -/
def pathMatch (pattern name : List Char) : Except Unit Bool :=
  goMatchLoop (pattern.length + 1) pattern name

/-- A malformed glob pattern: one that Go's own chunk validation (the same
check `Match` runs before reporting an error-free non-match) rejects. -/
def badPattern (pattern : List Char) : Bool :=
  match validateRest (pattern.length + 1) pattern with
  | .error _ => true
  | .ok _ => false

/-- Present returns true iff the list of outputs contains the named output
(randr.go); a match error aborts with false. -/
def Outputs.Present : Outputs → List Char → Bool
  | [], _ => false
  | o :: rest, name =>
    match pathMatch name o.Name with
    | .error _ => false
    | .ok m => if m = true then true else Outputs.Present rest name

/-- Connected returns true iff the list of outputs contains the named
output and it is connected (randr.go); a match error aborts with false. -/
def Outputs.Connected : Outputs → List Char → Bool
  | [], _ => false
  | o :: rest, name =>
    match pathMatch name o.Name with
    | .error _ => false
    | .ok m => if m = true ∧ o.Connected = true then true else Outputs.Connected rest name

/-- Range parsing behaves uniformly in the probe character and
accumulator: for the same chunk it either errors for all of them or
succeeds for all with the same remaining chunk. -/
lemma matchRanges_shape : ∀ (fuel : Nat) (started : Bool) (chunk : List Char)
    (r : Char) (acc : Bool) (r' : Char) (acc' : Bool),
    (matchRanges fuel r started acc chunk = .error () ∧
     matchRanges fuel r' started acc' chunk = .error ()) ∨
    (∃ m m' rest, matchRanges fuel r started acc chunk = .ok (m, rest) ∧
     matchRanges fuel r' started acc' chunk = .ok (m', rest)) := by
  intro fuel
  induction fuel with
  | zero => intro started chunk r acc r' acc'; left; exact ⟨rfl, rfl⟩
  | succ fuel ih =>
    intro started chunk r acc r' acc'
    simp only [matchRanges]
    by_cases h1 : chunk.headD nullChar = ']' ∧ started = true
    · rw [if_pos h1, if_pos h1]
      right; exact ⟨acc, acc', chunk.tail, rfl, rfl⟩
    · rw [if_neg h1, if_neg h1]
      rcases hg : getEsc chunk with e | ⟨lo, chunk1⟩ <;> simp only [hg]
      · simp
      · rcases hg2 : (if chunk1.headD nullChar = '-' then getEsc chunk1.tail
            else Except.ok (lo, chunk1)) with e | ⟨hi, chunk2⟩ <;> simp only [hg2]
        · simp
        · exact ih true chunk2 r _ r' _

/-- Whether a chunk is reported as malformed does not depend on the
name fragment being matched nor on the failure flag. -/
lemma matchChunkAux_err : ∀ (fuel : Nat) (chunk s : List Char) (failed : Bool)
    (s' : List Char) (failed' : Bool),
    matchChunkAux fuel chunk s failed = .error () →
    matchChunkAux fuel chunk s' failed' = .error () := by
  intro fuel
  induction fuel with
  | zero => intro chunk s failed s' failed' _; rfl
  | succ fuel ih =>
    intro chunk s failed s' failed' h
    cases chunk with
    | nil =>
      simp only [matchChunkAux] at h
      split at h <;> cases h
    | cons c chunkRest =>
      simp only [matchChunkAux] at h ⊢
      by_cases hc : c = '['
      · rw [if_pos hc] at h ⊢
        rcases matchRanges_shape
            ((if chunkRest.headD nullChar = '^' then chunkRest.tail else chunkRest).length + 1)
            false
            (if chunkRest.headD nullChar = '^' then chunkRest.tail else chunkRest)
            (if failed || s.isEmpty then nullChar else s.headD nullChar) false
            (if failed' || s'.isEmpty then nullChar else s'.headD nullChar) false
          with ⟨he1, he2⟩ | ⟨m, m', rest, ho1, ho2⟩
        · simp only [he2]
        · simp only [ho2]
          simp only [ho1] at h
          exact ih _ _ _ _ _ h
      · rw [if_neg hc] at h ⊢
        by_cases hq : c = '?'
        · rw [if_pos hq] at h ⊢
          split at h <;> split <;> exact ih _ _ _ _ _ h
        · rw [if_neg hq] at h ⊢
          by_cases hb : c = '\\'
          · rw [if_pos hb] at h ⊢
            by_cases hnil : chunkRest = []
            · rw [if_pos hnil]
            · rw [if_neg hnil] at h ⊢
              split at h <;> split <;> exact ih _ _ _ _ _ h
          · rw [if_neg hb] at h ⊢
            split at h <;> split <;> exact ih _ _ _ _ _ h

/-- If a chunk matches some name fragment without a pattern error, it
cannot report a pattern error on another fragment. -/
lemma matchChunk_not_err {chunk s s' : List Char} {v : List Char × Bool}
    (h : matchChunk chunk s = .ok v) : ¬ matchChunk chunk s' = .error () := by
  intro he
  have h2 := matchChunkAux_err (chunk.length + 1) chunk s' false s false he
  rw [matchChunk] at h
  rw [h] at h2
  cases h2

/-- The chunk scan splits its input: chunk and rest concatenate back. -/
lemma scanChunkAux_append : ∀ (n : Nat) (inrange : Bool) (l : List Char), l.length ≤ n →
    (scanChunkAux inrange l).1 ++ (scanChunkAux inrange l).2 = l := by
  intro n
  induction n with
  | zero =>
    intro ir l h
    have hl : l = [] := List.length_eq_zero.mp (Nat.le_zero.mp h)
    subst hl
    rfl
  | succ n ih =>
    intro ir l h
    cases l with
    | nil => rfl
    | cons c rest =>
      rw [scanChunkAux.eq_def]
      by_cases h1 : c = '*' ∧ ir = false
      · simp only [if_pos h1]
        rfl
      · by_cases h2 : c = '\\'
        · cases rest with
          | nil =>
            simp only [if_neg h1, if_pos h2]
            rfl
          | cons d rest2 =>
            have hlen : rest2.length ≤ n := by
              simp only [List.length_cons] at h
              omega
            have h3 := ih ir rest2 hlen
            simp only [if_neg h1, if_pos h2, List.cons_append, h3]
        · have hlen : rest.length ≤ n := by
            simp only [List.length_cons] at h
            omega
          have h3 := ih (if c = '[' then true else if c = ']' then false else ir) rest hlen
          simp only [if_neg h1, if_neg h2, List.cons_append, h3]

/-- After star stripping the pattern does not start with a star. -/
lemma dropStars_head : ∀ l : List Char, ¬ (dropStars l).2.headD nullChar = '*' := by
  intro l
  induction l with
  | nil => decide
  | cons c rest ih =>
    by_cases h : c = '*'
    · simp only [dropStars, if_pos h]
      exact ih
    · simp only [dropStars, if_neg h]
      simpa using h

/-- Star stripping never lengthens the pattern. -/
lemma dropStars_len : ∀ l : List Char, (dropStars l).2.length ≤ l.length := by
  intro l
  induction l with
  | nil => simp [dropStars]
  | cons c rest ih =>
    by_cases h : c = '*'
    · simp only [dropStars, if_pos h]
      exact le_trans ih (by simp)
    · simp only [dropStars, if_neg h]
      exact Nat.le_refl _

/-- A scan starting on a non-star character collects a non-empty chunk. -/
lemma scanChunkAux_fst_ne_nil : ∀ (ir : Bool) (c : Char) (rest : List Char), ¬ c = '*' →
    ¬ (scanChunkAux ir (c :: rest)).1 = [] := by
  intro ir c rest h
  rw [scanChunkAux.eq_def]
  have h1 : ¬ (c = '*' ∧ ir = false) := fun hc => h hc.1
  by_cases h2 : c = '\\'
  · cases rest with
    | nil => simp [if_neg h1, if_pos h2]
    | cons d rest2 => simp [if_neg h1, if_pos h2]
  · simp [if_neg h1, if_neg h2]

/-- Each iteration of the match loop strictly shrinks the pattern. -/
lemma scanChunk_rest_lt : ∀ pattern : List Char, ¬ pattern = [] →
    (scanChunk pattern).2.2.length < pattern.length := by
  intro pattern hne
  cases pattern with
  | nil => exact absurd rfl hne
  | cons c rest =>
    show (scanChunkAux false (dropStars (c :: rest)).2).2.length < (c :: rest).length
    by_cases hstar : c = '*'
    · have h1 : (dropStars (c :: rest)).2.length ≤ rest.length := by
        simp only [dropStars, if_pos hstar]
        exact dropStars_len rest
      have h2 := scanChunkAux_append ((dropStars (c :: rest)).2.length) false
        ((dropStars (c :: rest)).2) (le_refl _)
      have h3 : (scanChunkAux false (dropStars (c :: rest)).2).1.length +
          (scanChunkAux false (dropStars (c :: rest)).2).2.length =
          (dropStars (c :: rest)).2.length := by
        have h2' := congrArg List.length h2
        simpa [List.length_append] using h2'
      simp only [List.length_cons]
      omega
    · have hd : dropStars (c :: rest) = (false, c :: rest) := by
        simp [dropStars, hstar]
      rw [hd]
      have h2 := scanChunkAux_append (c :: rest).length false (c :: rest) (le_refl _)
      have h3 := scanChunkAux_fst_ne_nil false c rest hstar
      have h4 : (scanChunkAux false (c :: rest)).1.length +
          (scanChunkAux false (c :: rest)).2.length = (c :: rest).length := by
        have h2' := congrArg List.length h2
        simpa [List.length_append] using h2'
      have h5 : 0 < (scanChunkAux false (c :: rest)).1.length :=
        List.length_pos.mpr h3
      simp only [List.length_cons] at h4 ⊢
      omega

/-- An empty chunk can only arise from an exhausted pattern (once leading
stars are stripped), so the rest is empty as well. -/
lemma scanChunk_chunk_nil : ∀ pattern : List Char,
    (scanChunk pattern).2.1 = [] → (scanChunk pattern).2.2 = [] := by
  intro pattern h
  have h' : (scanChunkAux false (dropStars pattern).2).1 = [] := h
  show (scanChunkAux false (dropStars pattern).2).2 = []
  cases hl : (dropStars pattern).2 with
  | nil => rfl
  | cons c rest =>
    have hh := dropStars_head pattern
    rw [hl] at hh
    have hc : ¬ c = '*' := by simpa using hh
    rw [hl] at h'
    exact absurd h' (scanChunkAux_fst_ne_nil false c rest hc)

/-- An empty pattern passes validation with any non-zero fuel. -/
lemma validateRest_nil : ∀ fuel : Nat, 1 ≤ fuel → validateRest fuel [] = .ok () := by
  intro fuel h
  cases fuel with
  | zero => omega
  | succ n => rfl

/-- If the match loop answers `true`, the whole pattern passes the chunk
validation: a `true` answer is only produced after every chunk of the
pattern went through `matchChunk` without a pattern error. -/
lemma goMatchLoop_ok_true : ∀ (fuel : Nat) (pattern name : List Char),
    pattern.length < fuel → goMatchLoop fuel pattern name = .ok true →
    validateRest fuel pattern = .ok () := by
  intro fuel
  induction fuel with
  | zero => intro pattern name h _; omega
  | succ fuel ih =>
    intro pattern name hlen h
    cases pattern with
    | nil => rfl
    | cons p0 prest =>
      have hne : ¬ (p0 :: prest) = [] := by simp
      simp only [goMatchLoop] at h
      simp only [validateRest]
      by_cases hts : (scanChunk (p0 :: prest)).1 = true ∧ (scanChunk (p0 :: prest)).2.1 = []
      · have hrest : (scanChunk (p0 :: prest)).2.2 = [] := scanChunk_chunk_nil _ hts.2
        rw [hts.2, hrest]
        have hfuel : 1 ≤ fuel := by
          simp only [List.length_cons] at hlen
          omega
        simp only [matchChunk, List.length_nil, matchChunkAux, Bool.false_eq_true, if_false]
        exact validateRest_nil fuel hfuel
      · rw [if_neg hts] at h
        rcases hmc : matchChunk (scanChunk (p0 :: prest)).2.1 name with e | ⟨t, okb⟩
        · simp only [hmc] at h
          exact absurd h (by decide)
        · simp only [hmc] at h
          rcases hmc0 : matchChunk (scanChunk (p0 :: prest)).2.1 [] with e0 | v0
          · exact absurd hmc0 (matchChunk_not_err hmc)
          · simp only [hmc0]
            have hrlt : (scanChunk (p0 :: prest)).2.2.length < fuel := by
              have h6 := scanChunk_rest_lt (p0 :: prest) hne
              simp only [List.length_cons] at hlen h6
              omega
            by_cases hcont : okb = true ∧ (t = [] ∨ ¬ (scanChunk (p0 :: prest)).2.2 = [])
            · rw [if_pos hcont] at h
              exact ih _ _ hrlt h
            · rw [if_neg hcont] at h
              by_cases hstar : (scanChunk (p0 :: prest)).1 = true
              · rw [if_pos hstar] at h
                rcases hsl : starLoop (scanChunk (p0 :: prest)).2.1
                    (decide ((scanChunk (p0 :: prest)).2.2 = [])) name with e1 | o1
                · simp only [hsl] at h
                  exact absurd h (by decide)
                · simp only [hsl] at h
                  cases o1 with
                  | some t2 => exact ih _ _ hrlt h
                  | none =>
                    rcases hv : validateRest ((scanChunk (p0 :: prest)).2.2.length + 1)
                        (scanChunk (p0 :: prest)).2.2 with e2 | u2 <;>
                        simp only [hv] at h <;> exact absurd h (by decide)
              · rw [if_neg hstar] at h
                rcases hv : validateRest ((scanChunk (p0 :: prest)).2.2.length + 1)
                    (scanChunk (p0 :: prest)).2.2 with e2 | u2 <;>
                  simp only [hv] at h <;> exact absurd h (by decide)

/-- A malformed pattern can never produce a positive match. -/
lemma pathMatch_bad_not_true (p n : List Char) (hb : badPattern p = true) :
    ¬ pathMatch p n = .ok true := by
  intro h
  have hv := goMatchLoop_ok_true (p.length + 1) p n (by omega) h
  unfold badPattern at hb
  rw [hv] at hb
  exact absurd hb (by decide)

/-- C8: for every Outputs value and every pattern, when the pattern is a
malformed glob (Go's own chunk validation rejects it), Present and
Connected both return false — the pattern matches nothing, and the
pattern-syntax error is swallowed rather than propagated (both functions
return a plain boolean and map a match error to an immediate false). -/
theorem c8_bad_pattern (os : Outputs) (p : List Char) (hb : badPattern p = true) :
    Outputs.Present os p = false ∧ Outputs.Connected os p = false := by
  induction os with
  | nil => exact ⟨rfl, rfl⟩
  | cons o rest ih =>
    rw [Outputs.Present, Outputs.Connected]
    rcases hm : pathMatch p o.Name with e | m
    · exact ⟨rfl, rfl⟩
    · cases m with
      | true => exact absurd hm (pathMatch_bad_not_true p o.Name hb)
      | false =>
        constructor
        · simpa using ih.1
        · have h2 : ¬ (False ∧ o.Connected = true) := fun hc => hc.1
          simpa using ih.2

/-- C8 witness: the malformed pattern `[` (unterminated character class)
against a concrete output list. -/
theorem c8_witness :
    badPattern ("[".toList) = true ∧
    Outputs.Present [⟨"HDMI1".toList, [], true⟩] ("[".toList) = false ∧
    Outputs.Connected [⟨"HDMI1".toList, [], true⟩] ("[".toList) = false :=
  ⟨by decide,
   (c8_bad_pattern [⟨"HDMI1".toList, [], true⟩] ("[".toList) (by decide)).1,
   (c8_bad_pattern [⟨"HDMI1".toList, [], true⟩] ("[".toList) (by decide)).2⟩
